import Mathlib

/-!
Shallow embedding of the `verify-owners` Prow plugin
(`src/prow/plugins/cherrypick/cherrypick-unapproved.go`, second file in the
concatenation, package `verifyowners`).  The `handle` function validates
OWNERS / OWNERS_ALIASES files changed by a pull request and decides a single
label/review action.  External collaborators (GitHub client, git clone, the
YAML parsers from `repoowners`, `golint.AddedLines`, the org-membership
roster) are modelled as oracle fields of an environment record; `handle`
itself is translated statement by statement from the Go source, producing a
trace of external actions together with the returned error (`none` = the Go
function returned `nil`).
-/

namespace VerifyOwners

/-- `ownersFileName` constant from the source. -/
def ownersFileName : String := "OWNERS"

/-- `ownersAliasesFileName` constant from the source. -/
def ownersAliasesFileName : String := "OWNERS_ALIASES"

/-- Modelled from the spec: the invalid-ownership label `labels.InvalidOwners`
(the `labels` package is not under `src/`); the spec calls it the
"invalid-ownership label". Its exact text is never inspected by `handle`. -/
def invalidOwnersLabel : String := "do-not-merge/invalid-owners-file"

/-- A changed file of the pull request (`github.PullRequestChange`): the file
name is kept as its list of path components (Go handles it as a
slash-separated string), and the unified-diff fragment (`Patch`) is kept
opaque, consumed only by the `AddedLines` oracle. -/
structure PRChange where
  filename : List String
  patch : String
  deriving DecidableEq, Inhabited, Repr

/-- `filepath.Base` on a slash-joined component list: the last component
(`"."` for an empty path). -/
def pathBase (p : List String) : String := p.getLast?.getD "."

/-- `filepath.Dir p == "."` holds exactly when the path has a single
component (no slash). -/
def isRootDir (p : List String) : Bool := p.length ≤ 1

/-- `messageWithLine` from the source: a diff-relative line and a message. -/
structure MessageWithLine where
  line : Nat
  message : String
  deriving DecidableEq, Inhabited, Repr

/-- Modelled from the spec: a flat ownership declaration
(`repoowners.Config`, not under `src/`): the four role/label lists
(§3 *FlatDeclaration*). -/
structure Config where
  approvers : List String
  reviewers : List String
  requiredReviewers : List String
  labels : List String
  deriving DecidableEq, Inhabited, Repr

/-- Modelled from the spec: `repoowners.SimpleConfig` (not under `src/`),
the flat schema result. -/
structure SimpleConfig where
  config : Config
  deriving DecidableEq, Inhabited, Repr

/-- Modelled from the spec: `SimpleConfig.Empty` (not under `src/`): §4.2
"empty declaration" means all four role sets are of length zero. -/
def SimpleConfig.Empty (s : SimpleConfig) : Bool :=
  s.config.approvers.isEmpty && s.config.reviewers.isEmpty &&
    s.config.requiredReviewers.isEmpty && s.config.labels.isEmpty

/-- Modelled from the spec: `repoowners.FullConfig` (not under `src/`), the
filtered schema: an ordered sequence of per-pattern role declarations
(§3 *FilteredDeclaration*); `handle` only iterates its filter values. -/
structure FullConfig where
  filters : List Config
  deriving DecidableEq, Inhabited, Repr

/-- Modelled from the spec: `repoowners.RepoAliases` (not under `src/`): a
mapping from alias name to the list of member user names (§3 *AliasTable*,
no transitive aliasing). -/
def RepoAliases : Type := List (String × List String)

instance : Inhabited RepoAliases := ⟨([] : List (String × List String))⟩

/-- Key lookup `_, ok := repoAliases[login]`. -/
def hasAlias (ra : RepoAliases) (login : String) : Bool :=
  (ra.find? (fun p => p.1 = login)).isSome

/-- Modelled from the spec: `RepoAliases.ExpandAllAliases` (not under
`src/`): the union of all alias member sets — "expanding an alias yields
only user names, never nested aliases". -/
def expandAllAliases (ra : RepoAliases) : Finset String :=
  ra.foldl (fun acc p => acc ∪ p.2.toFinset) ∅

/-- `getNonMembersFromLists` translated from the source: union each list
into `totalUsers`, then delete every entry of that list that is an alias
name, and finally remove the org members. -/
def getNonMembersFromLists (repoAliases : RepoAliases) (members : Finset String)
    (lists : List (List String)) : Finset String :=
  let totalUsers := lists.foldl
    (fun acc list =>
      let acc := acc ∪ list.toFinset
      list.foldl (fun a login => if hasAlias repoAliases login then a.erase login else a) acc)
    ∅
  totalUsers \ members

/-- The inner deletion pass of `getNonMembersFromLists`. -/
def deleteAliases (repoAliases : RepoAliases) (s : Finset String) (list : List String) :
    Finset String :=
  list.foldl (fun a login => if hasAlias repoAliases login then a.erase login else a) s

/-- `github.DraftReviewComment`: path, body and diff-relative position of one
inline review comment. -/
structure DraftReviewComment where
  path : List String
  body : String
  position : Nat
  deriving DecidableEq, Inhabited, Repr

/-- `github.DraftReview` as built by `handle` (its `Action` field is always
`github.Comment`, so it is not represented). -/
structure DraftReview where
  body : String
  comments : List DraftReviewComment
  commitSHA : Option String
  deriving DecidableEq, Inhabited, Repr

/-- One observable call on the GitHub client made by `handle`.
`pruneComments` is the comment-pruning capability of the spec's §6 interface
list; it is part of the action vocabulary so that (non-)pruning is statable. -/
inductive GithubAction where
  | fetchMembers
  | addLabel (label : String)
  | removeLabel (label : String)
  | createReview (r : DraftReview)
  | createComment (body : String)
  | pruneComments
  deriving DecidableEq, Inhabited, Repr

/-- The oracle environment: results of all external collaborator calls made
during one run of `handle` (one event, fixed org/repo/PR number). -/
structure Env where
  /-- `GetPullRequestChanges` -/
  changes : Except String (List PRChange)
  /-- `gc.Clone` -/
  cloneResult : Except String Unit
  /-- `r.CheckoutPullRequest` -/
  checkoutResult : Except String Unit
  /-- `ioutil.ReadFile` on a path inside the checkout -/
  readFile : List String → Except String String
  /-- `repoowners.ParseAliasesConfig` (not under `src/`) -/
  parseAliases : String → Except String RepoAliases
  /-- `repoowners.ParseSimpleConfig` (not under `src/`) -/
  parseSimple : String → Except String SimpleConfig
  /-- `repoowners.ParseFullConfig` (not under `src/`) -/
  parseFull : String → Except String FullConfig
  /-- the regexp scan for a decimal number after the token `line` in an
  error message (`lineNumberRe.FindStringSubmatch` + `strconv.Atoi`) -/
  extractLine : String → Option Nat
  /-- `golint.AddedLines` (not under `src/`): absolute new-file line number
  to position within the diff fragment -/
  addedLines : String → Except String (Nat → Option Nat)
  /-- `getMembersForOrg org` (org fixed for the run) -/
  getMembersForOrg : Except String (Finset String)
  /-- result of `ghc.AddLabel` -/
  addLabelResult : Except String Unit
  /-- result of `ghc.RemoveLabel` -/
  removeLabelResult : Except String Unit
  /-- result of `ghc.CreateReview` -/
  createReviewResult : Except String Unit
  /-- `plugins.FormatResponseRaw` (not under `src/`) with the event's body,
  URL and author fixed, applied to the response text -/
  formatResponseRaw : String → String

/-- The fields of the pull-request event that `handle` reads beyond what is
already fixed inside `Env`. -/
structure PREvent where
  org : String
  headSHA : String
  deriving DecidableEq, Inhabited, Repr

/-- Lines 331–344 (and 270–283) of the source: recover a diff-relative line
for an error message — extract an absolute line number from the message,
convert it through `AddedLines` on the file's patch, and default to 1 at
every failure point. -/
def computeLine (env : Env) (patch : String) (errMsg : String) : Nat :=
  match env.extractLine errMsg with
  | none => 1
  | some absoluteLineNumber =>
    match env.addedLines patch with
    | .error _ => 1
    | .ok al =>
      match al absoluteLineNumber with
      | some val => val
      | none => 1

/-- `fmt.Sprintf("Cannot parse file: %v.", err)` -/
def cannotParseMsg (e : String) : String := "Cannot parse file: " ++ e ++ "."

/-- `sets.String.List()`: the sorted element list of a string set. -/
def sortedList (s : Finset String) : List String := s.sort (· ≤ ·)

/-- The blacklist violation message of line 370 (rendering of the
intersection list differs only in list syntax). -/
def blacklistMsg (labels labelsBlackList : List String) : String :=
  "File contains blacklisted labels: " ++
    toString (sortedList (labels.toFinset ∩ labelsBlackList.toFinset)) ++ "."

/-- The root-approver violation message of line 378. -/
def rootApproversMsg : String :=
  "No approvers defined in this root directory " ++ ownersFileName ++ " file."

/-- Outcome of the two-schema parse attempt for one OWNERS file: either the
error kept for the file, or the four assembled role/label lists. -/
inductive ParsedDecl where
  | failure (e : String)
  | decl (cfg : Config)
  deriving DecidableEq, Inhabited, Repr

/-- Lines 329–358: the filtered-schema attempt.  On success the role lists
are the filter-wise concatenations, in filter order. -/
def tryFullConfig (env : Env) (b : String) : ParsedDecl :=
  match env.parseFull b with
  | .error e => .failure e
  | .ok full =>
    .decl ⟨full.filters.foldl (fun acc cfg => acc ++ cfg.approvers) [],
           full.filters.foldl (fun acc cfg => acc ++ cfg.reviewers) [],
           full.filters.foldl (fun acc cfg => acc ++ cfg.requiredReviewers) [],
           full.filters.foldl (fun acc cfg => acc ++ cfg.labels) []⟩

/-- Lines 327–365: flat-schema parsing is attempted first; on failure or an
empty flat declaration the filtered schema is attempted. -/
def parseOwnersDecl (env : Env) (b : String) : ParsedDecl :=
  match env.parseSimple b with
  | .error _ => tryFullConfig env b
  | .ok simple =>
    if simple.Empty then tryFullConfig env b
    else .decl simple.config

/-- Go map assignment `m[k] = v` on the association-list model of
`wrongOwnersFiles`. -/
def updateMap (m : List (List String × MessageWithLine)) (k : List String)
    (v : MessageWithLine) : List (List String × MessageWithLine) :=
  match m with
  | [] => [(k, v)]
  | (k', v') :: rest => if k' = k then (k, v) :: rest else (k', v') :: updateMap rest k v

/-- The mutable state threaded through the per-OWNERS-file loop of lines
316–390. -/
structure LoopState where
  wrongOwnersFiles : List (List String × MessageWithLine)
  members : Finset String
  nonMembers : Finset String
  trace : List GithubAction

/-- One iteration of the loop of lines 316–390 over a changed OWNERS file.
`.error (trace, ret)` means `handle` returned from inside the loop with
that trace and return value; `.ok` carries the updated state (including the
`continue` cases). -/
def stepOwnersFile (env : Env) (labelsBlackList : List String)
    (repoAliases : RepoAliases) (st : LoopState) (c : PRChange) :
    Except (List GithubAction × Option String) LoopState :=
  match env.readFile c.filename with
  | .error _ => .error (st.trace, none)
  | .ok b =>
    match parseOwnersDecl env b with
    | .failure e =>
      let msg := MessageWithLine.mk (computeLine env c.patch e) (cannotParseMsg e)
      .ok { st with wrongOwnersFiles := updateMap st.wrongOwnersFiles c.filename msg }
    | .decl cfg =>
      if labelsBlackList.any (fun x => cfg.labels.contains x) then
        let msg := MessageWithLine.mk 1 (blacklistMsg cfg.labels labelsBlackList)
        .ok { st with wrongOwnersFiles := updateMap st.wrongOwnersFiles c.filename msg }
      else if isRootDir c.filename && cfg.approvers.isEmpty then
        let msg := MessageWithLine.mk 1 rootApproversMsg
        .ok { st with wrongOwnersFiles := updateMap st.wrongOwnersFiles c.filename msg }
      else if st.members.card = 0 then
        match env.getMembersForOrg with
        | .error e =>
          .error (st.trace ++ [.fetchMembers], some ("failed to get members for org: " ++ e))
        | .ok m =>
          let nm := st.nonMembers ∪ getNonMembersFromLists repoAliases m
            [cfg.approvers, cfg.reviewers, cfg.requiredReviewers]
          .ok { st with trace := st.trace ++ [.fetchMembers], members := m, nonMembers := nm }
      else
        let nm := st.nonMembers ∪ getNonMembersFromLists repoAliases st.members
          [cfg.approvers, cfg.reviewers, cfg.requiredReviewers]
        .ok { st with nonMembers := nm }

/-- The loop of lines 316–390 over all changed OWNERS files. -/
def ownersLoop (env : Env) (labelsBlackList : List String) (repoAliases : RepoAliases) :
    LoopState → List PRChange → Except (List GithubAction × Option String) LoopState
  | st, [] => .ok st
  | st, c :: cs =>
    match stepOwnersFile env labelsBlackList repoAliases st c with
    | .error r => .error r
    | .ok st' => ownersLoop env labelsBlackList repoAliases st' cs

/-- Line 393: `len(wrongOwnersFiles) > 0 || wrongOwnersAliasesFilePresent ||
len(nonMembers) > 0`. -/
def hasViolation (wrongOwnersFiles : List (List String × MessageWithLine))
    (wrongOwnersAliasesFilePresent : Bool) (nonMembers : Finset String) : Bool :=
  !wrongOwnersFiles.isEmpty || wrongOwnersAliasesFilePresent || nonMembers.card > 0

/-- Lines 403–412: one inline comment per wrong OWNERS file, at its recorded
message and diff-relative line. -/
def wofComments (wrongOwnersFiles : List (List String × MessageWithLine)) :
    List DraftReviewComment :=
  wrongOwnersFiles.map (fun p => ⟨p.1, p.2.message, p.2.line⟩)

/-- Lines 394–397 and 424–439: the single summary body of the review. -/
def mkResponse (org : String) (wofLen : Nat) (aliasPresent : Bool)
    (nonMembers : Finset String) : String :=
  let s := if wofLen = 1 then "" else "s"
  let response := "Adding the " ++ invalidOwnersLabel ++
    " label because of the following errors:\n"
  let response := if wofLen > 0 then
    response ++ "- " ++ toString wofLen ++ " invalid " ++ ownersFileName ++ " file" ++ s
    else response
  let response := if aliasPresent then
    response ++ "- An invalid " ++ ownersAliasesFileName ++ " file"
    else response
  if nonMembers.card > 0 then
    let nonMemberResp := "- The following users are not members of the " ++ org ++
      " GitHub org. Membership is mandatory for being listed in an " ++ ownersFileName ++
      " file. Instructions for applying for membership can be found [here](https://git.k8s.io/community/community-membership.md#member)."
    response ++ (sortedList nonMembers).foldl
      (fun acc user => acc ++ "\n" ++ "  - @" ++ user) nonMemberResp
  else response

/-- Lines 392–460: the terminal Deciding-to-Acting step of `handle`.  On a
violation, add the invalid-ownership label (a failure is returned), then
post one batched review (a failure is returned wrapped); otherwise remove
the label (a failure is returned wrapped). -/
def react (env : Env) (pre : PREvent)
    (wrongOwnersFiles : List (List String × MessageWithLine))
    (wrongOwnersAliasesFilePresent : Bool) (ownersAliasesFileError : MessageWithLine)
    (nonMembers : Finset String) (trace : List GithubAction) :
    List GithubAction × Option String :=
  if hasViolation wrongOwnersFiles wrongOwnersAliasesFilePresent nonMembers then
    let trace := trace ++ [.addLabel invalidOwnersLabel]
    match env.addLabelResult with
    | .error e => (trace, some e)
    | .ok _ =>
      let comments := wofComments wrongOwnersFiles ++
        (if wrongOwnersAliasesFilePresent then
          [⟨[ownersAliasesFileName], ownersAliasesFileError.message,
            ownersAliasesFileError.line⟩]
         else [])
      let response := mkResponse pre.org wrongOwnersFiles.length
        wrongOwnersAliasesFilePresent nonMembers
      let draftReview : DraftReview :=
        { body := env.formatResponseRaw response
          comments := comments
          commitSHA := if pre.headSHA ≠ "" then some pre.headSHA else none }
      let trace := trace ++ [.createReview draftReview]
      match env.createReviewResult with
      | .error e =>
        (trace, some ("error creating a review for " ++ response ++ ": " ++ e))
      | .ok _ => (trace, none)
  else
    let trace := trace ++ [.removeLabel invalidOwnersLabel]
    match env.removeLabelResult with
    | .error e =>
      (trace, some ("failed removing " ++ invalidOwnersLabel ++ " label: " ++ e))
    | .ok _ => (trace, none)

/-- State produced by the OWNERS_ALIASES branch of lines 257–299. -/
structure AliasState where
  repoAliases : RepoAliases
  ownersAliasesFileError : MessageWithLine
  wrongOwnersAliasesFilePresent : Bool
  members : Finset String
  nonMembers : Finset String
  trace : List GithubAction

/-- Lines 257–299: when OWNERS_ALIASES was modified, read and parse it
(binding the parse error to a diff-relative line), fetch the membership
roster (`members` is still empty at this point, so the `members.Len() == 0`
guard of line 291 always fires), and compute the non-members among all
alias-expanded users.  A read failure makes `handle` log and return `nil`;
a roster failure makes it return the error. -/
def aliasPhase (env : Env) (modifiedOwnerAliasesFile : PRChange) :
    Except (List GithubAction × Option String) AliasState :=
  match env.readFile [ownersAliasesFileName] with
  | .error _ => .error ([], none)
  | .ok b =>
    let parsed := env.parseAliases b
    let repoAliases : RepoAliases := match parsed with
      | .ok ra => ra
      | .error _ => []
    let ownersAliasesFileError : MessageWithLine := match parsed with
      | .error e => ⟨computeLine env modifiedOwnerAliasesFile.patch e, cannotParseMsg e⟩
      | .ok _ => default
    let wrongOwnersAliasesFilePresent : Bool := match parsed with
      | .error _ => true
      | .ok _ => false
    match env.getMembersForOrg with
    | .error e => .error ([.fetchMembers], some ("failed to get members for org: " ++ e))
    | .ok members =>
      .ok { repoAliases, ownersAliasesFileError, wrongOwnersAliasesFilePresent,
            members,
            nonMembers := expandAllAliases repoAliases \ members,
            trace := [.fetchMembers] }

/-- Lines 222–229: the changed files whose name is exactly
`OWNERS_ALIASES` (note: full-path equality, not base-name matching); the
last one is kept as `modifiedOwnerAliasesFile`. -/
def aliasChangesOf (changes : List PRChange) : List PRChange :=
  changes.filter (fun c => c.filename == [ownersAliasesFileName])

/-- Lines 232–237: the changed files whose base name is `OWNERS`. -/
def modifiedOwnersFilesOf (changes : List PRChange) : List PRChange :=
  changes.filter (fun c => pathBase c.filename == ownersFileName)

/-- Lines 221–461 of `handle`: everything after the changed-file list has
been fetched successfully. -/
def handleWithChanges (env : Env) (pre : PREvent) (labelsBlackList : List String)
    (changes : List PRChange) : List GithubAction × Option String :=
    let aliasChanges := aliasChangesOf changes
    let ownerAliasesModified := !aliasChanges.isEmpty
    let modifiedOwnerAliasesFile := (aliasChanges.getLast?).getD default
    let modifiedOwnersFiles := modifiedOwnersFilesOf changes
    if modifiedOwnersFiles.isEmpty && !ownerAliasesModified then ([], none)
    else
      match env.cloneResult with
      | .error e => ([], some e)
      | .ok _ =>
        match env.checkoutResult with
        | .error e => ([], some e)
        | .ok _ =>
          let afterAlias : Except (List GithubAction × Option String) AliasState :=
            if ownerAliasesModified then aliasPhase env modifiedOwnerAliasesFile
            else .ok { repoAliases := ([] : List (String × List String)),
                       ownersAliasesFileError := default,
                       wrongOwnersAliasesFilePresent := false,
                       members := ∅, nonMembers := ∅, trace := [] }
          match afterAlias with
          | .error r => r
          | .ok ast =>
            if !modifiedOwnersFiles.isEmpty && !ownerAliasesModified then
              match env.readFile [ownersAliasesFileName] with
              | .error _ => (ast.trace, none)
              | .ok b =>
                match env.parseAliases b with
                | .error e => (ast.trace, some e)
                | .ok _ => (ast.trace, none)
            else
              match ownersLoop env labelsBlackList ast.repoAliases
                  ⟨[], ast.members, ast.nonMembers, ast.trace⟩ modifiedOwnersFiles with
              | .error r => r
              | .ok st =>
                react env pre st.wrongOwnersFiles ast.wrongOwnersAliasesFilePresent
                  ast.ownersAliasesFileError st.nonMembers st.trace

/-- The `handle` function of the `verifyowners` plugin (lines 206–461),
translated statement by statement.  The result is the ordered trace of
GitHub-client mutations/fetches performed and the Go return value
(`none` = `nil`). -/
def handle (env : Env) (pre : PREvent) (labelsBlackList : List String) :
    List GithubAction × Option String :=
  match env.changes with
  | .error e => ([], some ("error getting PR changes: " ++ e))
  | .ok changes => handleWithChanges env pre labelsBlackList changes

/-- Number of membership-roster fetches in a trace. -/
def countFetch (tr : List GithubAction) : Nat :=
  tr.count GithubAction.fetchMembers

/-- The trace at the end of the per-file loop, whether `handle` returned
from inside the loop or the loop ran to completion. -/
def loopTrace (r : Except (List GithubAction × Option String) LoopState) :
    List GithubAction :=
  match r with
  | .error p => p.1
  | .ok st => st.trace

/-! Concrete oracle environments used to evaluate `handle` on explicit
inputs.  `envBase` is a run where every collaborator call succeeds
trivially; the scenarios override individual oracles. -/

/-- Baseline environment: no changes, all collaborator calls succeed, both
OWNERS schemas fail to parse, the alias file parses to an empty table and
the org roster is empty. -/
def envBase : Env :=
  { changes := .ok []
    cloneResult := .ok ()
    checkoutResult := .ok ()
    readFile := fun _ => .ok ""
    parseAliases := fun _ => .ok ([] : List (String × List String))
    parseSimple := fun _ => .error "flat schema error"
    parseFull := fun _ => .error "full schema error"
    extractLine := fun _ => none
    addedLines := fun _ => .error "no added lines"
    getMembersForOrg := .ok ∅
    addLabelResult := .ok ()
    removeLabelResult := .ok ()
    createReviewResult := .ok ()
    formatResponseRaw := fun s => s }

/-- A fixed pull-request event. -/
def pre0 : PREvent := ⟨"kubernetes", "headsha"⟩

/-- A changed `pkg/OWNERS` file. -/
def ownersChange : PRChange := ⟨["pkg", "OWNERS"], "ownerspatch"⟩

/-- A changed top-level `OWNERS_ALIASES` file. -/
def aliasChange : PRChange := ⟨["OWNERS_ALIASES"], "aliasespatch"⟩

/-- Scenario: only `pkg/OWNERS` changed (and is unparseable under both
schemas), `OWNERS_ALIASES` unchanged and cleanly parseable. -/
def envOwnersOnly : Env := { envBase with changes := .ok [ownersChange] }

/-- Scenario: only `OWNERS_ALIASES` changed and parses cleanly; no
violation of any kind. -/
def envAliasClean : Env := { envBase with changes := .ok [aliasChange] }

/-- Scenario: `OWNERS_ALIASES` changed and fails to parse, and the
`AddLabel` call fails. -/
def envAliasBadAddFails : Env :=
  { envBase with
    changes := .ok [aliasChange]
    parseAliases := fun _ => .error "bad yaml"
    addLabelResult := .error "boom" }

/-- Scenario: `OWNERS_ALIASES` changed but reading it from the checkout
fails. -/
def envAliasReadFails : Env :=
  { envBase with
    changes := .ok [aliasChange]
    readFile := fun _ => .error "disk error" }

/-- Scenario: both `OWNERS_ALIASES` and `pkg/OWNERS` changed, the org
roster is empty, and the OWNERS file parses flat with one approver. -/
def envEmptyRoster : Env :=
  { envBase with
    changes := .ok [aliasChange, ownersChange]
    parseSimple := fun _ => .ok ⟨⟨["alice"], [], [], []⟩⟩ }

/-- Scenario: a pull request touching no ownership-related file. -/
def envNoOwnership : Env := { envBase with changes := .ok [⟨["main.go"], "p"⟩] }

/-- Scenario: fetching the changed-file list itself fails. -/
def envChangesFail : Env := { envBase with changes := .error "network down" }

/-- Scenario: only `OWNERS_ALIASES` changed, cleanly parseable, and the org
roster fetch returns the non-empty set `{"alice"}`. -/
def envNonemptyRoster : Env :=
  { envAliasClean with getMembersForOrg := .ok {"alice"} }


theorem mem_deleteAliases (ra : RepoAliases) (s : Finset String) (list : List String)
    (x : String) :
    x ∈ deleteAliases ra s list ↔ x ∈ s ∧ ¬(hasAlias ra x = true ∧ x ∈ list) := by
  induction list generalizing s with
  | nil => simp [deleteAliases]
  | cons l ls ih =>
    simp only [deleteAliases, List.foldl_cons] at *
    rw [ih]
    by_cases hl : hasAlias ra l = true
    · simp only [hl, if_pos]
      constructor
      · rintro ⟨hx, hnot⟩
        rcases Finset.mem_erase.mp hx with ⟨hne, hxs⟩
        refine ⟨hxs, ?_⟩
        rintro ⟨ha, hmem⟩
        rcases List.mem_cons.mp hmem with h | h
        · exact hne h
        · exact hnot ⟨ha, h⟩
      · rintro ⟨hxs, hnot⟩
        refine ⟨Finset.mem_erase.mpr ⟨?_, hxs⟩, ?_⟩
        · intro hxl
          exact hnot ⟨hxl ▸ hl, hxl ▸ List.mem_cons_self l ls⟩
        · rintro ⟨ha, hmem⟩
          exact hnot ⟨ha, List.mem_cons_of_mem l hmem⟩
    · simp only [hl, if_neg, Bool.false_eq_true, not_false_eq_true]
      constructor
      · rintro ⟨hxs, hnot⟩
        refine ⟨hxs, ?_⟩
        rintro ⟨ha, hmem⟩
        rcases List.mem_cons.mp hmem with h | h
        · exact hl (h ▸ ha)
        · exact hnot ⟨ha, h⟩
      · rintro ⟨hxs, hnot⟩
        refine ⟨hxs, ?_⟩
        rintro ⟨ha, hmem⟩
        exact hnot ⟨ha, List.mem_cons_of_mem l hmem⟩

theorem totalUsers_spec (ra : RepoAliases) (lists : List (List String)) (x : String) :
    x ∈ lists.foldl
      (fun acc list =>
        let acc := acc ∪ list.toFinset
        list.foldl (fun a login => if hasAlias ra login then a.erase login else a) acc)
      ∅ ↔ (∃ l ∈ lists, x ∈ l) ∧ hasAlias ra x = false := by
  suffices h : ∀ (s : Finset String),
      (∀ y ∈ s, hasAlias ra y = false) →
      (x ∈ lists.foldl
        (fun acc list =>
          let acc := acc ∪ list.toFinset
          list.foldl (fun a login => if hasAlias ra login then a.erase login else a) acc)
        s ↔ (x ∈ s ∨ ∃ l ∈ lists, x ∈ l) ∧ hasAlias ra x = false) by
    have := h ∅ (by intro y hy; simp at hy)
    simpa using this
  induction lists with
  | nil =>
    intro s hs
    simp only [List.foldl_nil, List.not_mem_nil]
    constructor
    · intro hx
      exact ⟨Or.inl hx, hs x hx⟩
    · rintro ⟨h | h, _⟩
      · exact h
      · rcases h with ⟨l, hl, _⟩
        exact hl.elim
  | cons l ls ih =>
    intro s hs
    simp only [List.foldl_cons]
    have hstep : ∀ y, y ∈ deleteAliases ra (s ∪ l.toFinset) l →
        hasAlias ra y = false := by
      intro y hy
      rcases (mem_deleteAliases ra _ l y).mp hy with ⟨hmem, hnot⟩
      rcases Finset.mem_union.mp hmem with h | h
      · exact hs y h
      · by_contra hcon
        simp only [Bool.not_eq_false] at hcon
        exact hnot ⟨hcon, List.mem_toFinset.mp h⟩
    have := ih (deleteAliases ra (s ∪ l.toFinset) l) hstep
    rw [show (l.foldl (fun a login => if hasAlias ra login then a.erase login else a)
          (s ∪ l.toFinset)) = deleteAliases ra (s ∪ l.toFinset) l from rfl] at *
    rw [this]
    rw [mem_deleteAliases]
    constructor
    · rintro ⟨h1, h2⟩
      rcases h1 with ⟨hmem, hnot⟩ | ⟨l', hl', hx⟩
      · rcases Finset.mem_union.mp hmem with h | h
        · exact ⟨Or.inl h, h2⟩
        · exact ⟨Or.inr ⟨l, List.mem_cons_self l ls, List.mem_toFinset.mp h⟩, h2⟩
      · exact ⟨Or.inr ⟨l', List.mem_cons_of_mem l hl', hx⟩, h2⟩
    · rintro ⟨h1, h2⟩
      refine ⟨?_, h2⟩
      rcases h1 with h | ⟨l', hl', hx⟩
      · exact Or.inl ⟨Finset.mem_union_left _ h, by simp [h2]⟩
      · rcases List.mem_cons.mp hl' with rfl | hl'
        · exact Or.inl ⟨Finset.mem_union_right _ (List.mem_toFinset.mpr hx), by simp [h2]⟩
        · exact Or.inr ⟨l', hl', hx⟩

/-- Full characterisation of `getNonMembersFromLists`: the result is exactly
the set of entries of the input lists that are not alias names, minus the
org members.  In particular an alias entry contributes nothing at all — it
is deleted without being expanded into its member user names. -/
theorem getNonMembersFromLists_spec (ra : RepoAliases) (members : Finset String)
    (lists : List (List String)) (x : String) :
    x ∈ getNonMembersFromLists ra members lists ↔
      (∃ l ∈ lists, x ∈ l) ∧ hasAlias ra x = false ∧ x ∉ members := by
  unfold getNonMembersFromLists
  rw [Finset.mem_sdiff, totalUsers_spec]
  tauto

/-- C1: at a concrete input — a pull request changing only `pkg/OWNERS`,
whose content is unparseable under both schemas, against a non-empty
blacklist, with `OWNERS_ALIASES` unchanged and cleanly parseable — `handle`
performs no roster fetch, no label mutation and no review, and returns
`nil`: the early return of line 312 skips the blacklist, root-approver and
membership checks the code's own comment (lines 301–303) announces. -/
theorem c1_owners_only_change_skips_all_checks :
    handle envOwnersOnly pre0 ["banned"] = ([], none) ∧
    parseOwnersDecl envOwnersOnly "" = ParsedDecl.failure "full schema error" :=
  ⟨by decide, by decide⟩

/-- C2 counterexample: a concrete run with no violation removes the label
and posts nothing, but performs no comment pruning — the trace is exactly
a roster fetch followed by the label removal. -/
theorem c2_counterexample_no_pruning :
    handle envAliasClean pre0 [] =
      ([GithubAction.fetchMembers, GithubAction.removeLabel invalidOwnersLabel], none) ∧
    GithubAction.pruneComments ∉ (handle envAliasClean pre0 []).1 :=
  ⟨by decide, by decide⟩

/-- C2 (amended): when a run finds no violation, `handle` removes the
invalid-ownership label and posts no new review — but it performs no
comment pruning (this version has no pruner), and a failure of the label
removal is returned rather than logged. -/
theorem c2_no_violation_removes_label_posts_nothing
    (env : Env) (pre : PREvent) (wof : List (List String × MessageWithLine))
    (present : Bool) (me : MessageWithLine) (nm : Finset String)
    (tr : List GithubAction)
    (h : hasViolation wof present nm = false) :
    (react env pre wof present me nm tr).1 =
      tr ++ [GithubAction.removeLabel invalidOwnersLabel] ∧
    (env.removeLabelResult = Except.ok () →
      (react env pre wof present me nm tr).2 = none) ∧
    (∀ r, GithubAction.createReview r ∉
      (react env pre wof present me nm tr).1.drop tr.length) ∧
    GithubAction.pruneComments ∉ (react env pre wof present me nm tr).1.drop tr.length := by
  unfold react
  simp only [h, Bool.false_eq_true, if_false]
  cases hrem : env.removeLabelResult with
  | error e =>
    simp [List.drop_left]
  | ok u =>
    simp [List.drop_left]

/-- C2 witness. -/
theorem c2_witness :
    hasViolation [] false ∅ = false ∧
    (react envBase pre0 [] false default ∅ []).1 =
      [] ++ [GithubAction.removeLabel invalidOwnersLabel] :=
  ⟨by decide,
    (c2_no_violation_removes_label_posts_nothing envBase pre0 [] false default ∅ []
      (by decide)).1⟩

/-- C3 counterexample: with the alias table mapping `team` to `["alice"]`,
an empty membership roster and the single role list `["team"]`, the claim
demands that the expanded member `alice` be in the total-users set (and
hence, not being a member, in the result) — but the result is empty: the
alias entry was deleted without being expanded. -/
theorem c3_counterexample_alias_not_expanded :
    hasAlias [("team", ["alice"])] "team" = true ∧
    getNonMembersFromLists [("team", ["alice"])] ∅ [["team"]] = ∅ ∧
    "alice" ∉ getNonMembersFromLists [("team", ["alice"])] ∅ [["team"]] :=
  ⟨by decide, by decide, by decide⟩

/-- C3 (amended): in the total-referenced-users set of
`getNonMembersFromLists`, an entry that is an alias name contributes
nothing — it is removed without being expanded into its member user names —
and no alias name ever appears in the result; the result is exactly the
non-alias entries of the role lists minus the org members. -/
theorem c3_alias_entries_removed_never_expanded :
    (∀ (ra : RepoAliases) (members : Finset String) (lists : List (List String))
      (x : String), hasAlias ra x = true →
        x ∉ getNonMembersFromLists ra members lists) ∧
    (∀ (ra : RepoAliases) (members : Finset String) (lists : List (List String))
      (x : String), x ∈ getNonMembersFromLists ra members lists ↔
        (∃ l ∈ lists, x ∈ l) ∧ hasAlias ra x = false ∧ x ∉ members) := by
  constructor
  · intro ra members lists x hx hmem
    rcases (getNonMembersFromLists_spec ra members lists x).mp hmem with ⟨_, hfalse, _⟩
    rw [hx] at hfalse
    exact absurd hfalse (by simp)
  · exact getNonMembersFromLists_spec

/-- C3 witness. -/
theorem c3_witness :
    hasAlias [("team", ["alice"])] "team" = true ∧
    "team" ∉ getNonMembersFromLists [("team", ["alice"])] ∅ [["team", "bob"]] :=
  ⟨by decide,
    c3_alias_entries_removed_never_expanded.1 [("team", ["alice"])] ∅ [["team", "bob"]]
      "team" (by decide)⟩

/-- C4 counterexample: a concrete run with a violation (a broken
`OWNERS_ALIASES` file) in which `AddLabel` fails: `handle` aborts right
after the label call — no review is posted — and returns the error instead
of reporting success. -/
theorem c4_counterexample_add_label_failure_surfaces :
    handle envAliasBadAddFails pre0 [] =
      ([GithubAction.fetchMembers, GithubAction.addLabel invalidOwnersLabel],
        some "boom") ∧
    (handle envAliasBadAddFails pre0 []).2 ≠ none :=
  ⟨by decide, by decide⟩

/-- C4 (amended): failures while adding or removing the invalid-ownership
label or while posting the review abort the run and are surfaced to the
caller — `handle` returns a non-nil error in each of the three cases, not
success. -/
theorem c4_notification_failures_abort_run
    (env : Env) (pre : PREvent) (wof : List (List String × MessageWithLine))
    (present : Bool) (me : MessageWithLine) (nm : Finset String)
    (tr : List GithubAction) :
    (hasViolation wof present nm = true →
      ∀ e, env.addLabelResult = Except.error e →
        (react env pre wof present me nm tr).2 = some e) ∧
    (hasViolation wof present nm = true →
      env.addLabelResult = Except.ok () →
      ∀ e, env.createReviewResult = Except.error e →
        (react env pre wof present me nm tr).2 =
          some ("error creating a review for " ++
            mkResponse pre.org wof.length present nm ++ ": " ++ e)) ∧
    (hasViolation wof present nm = false →
      ∀ e, env.removeLabelResult = Except.error e →
        (react env pre wof present me nm tr).2 =
          some ("failed removing " ++ invalidOwnersLabel ++ " label: " ++ e)) := by
  refine ⟨?_, ?_, ?_⟩
  · intro hv e hadd
    unfold react
    simp only [hv, if_true, hadd]
  · intro hv hadd e hrev
    unfold react
    simp only [hv, if_true, hadd, hrev]
  · intro hv e hrem
    unfold react
    simp only [hv, Bool.false_eq_true, if_false, hrem]

/-- C4 witness. -/
theorem c4_witness :
    hasViolation [] true ∅ = true ∧
    envAliasBadAddFails.addLabelResult = Except.error "boom" ∧
    (react envAliasBadAddFails pre0 [] true default ∅ []).2 = some "boom" :=
  ⟨by decide, rfl,
    (c4_notification_failures_abort_run envAliasBadAddFails pre0 [] true default ∅ []).1
      (by decide) "boom" rfl⟩

/-- C5 counterexample: a concrete run in which the changed-file list is
fetched successfully but reading the changed `OWNERS_ALIASES` file from the
checkout fails: `handle` aborts but returns `nil`, not an error. -/
theorem c5_counterexample_read_failure_returns_nil :
    envAliasReadFails.readFile [ownersAliasesFileName] = Except.error "disk error" ∧
    handle envAliasReadFails pre0 [] = ([], none) :=
  ⟨rfl, by decide⟩

/-- C8 counterexample: `OWNERS_ALIASES` and `pkg/OWNERS` both changed and
the successfully fetched roster is empty: the roster is fetched twice in
one run, because the cache test is `members.Len() == 0`. -/
theorem c8_counterexample_empty_roster_refetch :
    envEmptyRoster.getMembersForOrg = Except.ok ∅ ∧
    countFetch (handle envEmptyRoster pre0 []).1 = 2 :=
  ⟨rfl, by decide⟩

/-- C10: for a changed OWNERS file that parses to a declaration whose
labels intersect the blacklist, the loop body records only the blacklist
violation and `continue`s: the state keeps its members, non-members and
trace (so no membership fetch and no non-member contribution from that
file's role lists); likewise a root-approver failure records only that
violation and contributes nothing to the non-member set. -/
theorem c10_blacklist_and_root_short_circuit
    (env : Env) (bl : List String) (ra : RepoAliases) (st : LoopState)
    (c : PRChange) (b : String) (cfg : Config)
    (hread : env.readFile c.filename = Except.ok b)
    (hparse : parseOwnersDecl env b = ParsedDecl.decl cfg) :
    (bl.any (fun x => cfg.labels.contains x) = true →
      ∃ st', stepOwnersFile env bl ra st c = Except.ok st' ∧
        st'.wrongOwnersFiles = updateMap st.wrongOwnersFiles c.filename
          (MessageWithLine.mk 1 (blacklistMsg cfg.labels bl)) ∧
        st'.members = st.members ∧ st'.nonMembers = st.nonMembers ∧
        st'.trace = st.trace) ∧
    (bl.any (fun x => cfg.labels.contains x) = false →
      (isRootDir c.filename && cfg.approvers.isEmpty) = true →
      ∃ st', stepOwnersFile env bl ra st c = Except.ok st' ∧
        st'.wrongOwnersFiles = updateMap st.wrongOwnersFiles c.filename
          (MessageWithLine.mk 1 rootApproversMsg) ∧
        st'.members = st.members ∧ st'.nonMembers = st.nonMembers ∧
        st'.trace = st.trace) := by
  constructor
  · intro hbl
    unfold stepOwnersFile
    simp only [hread, hparse, hbl, if_true]
    exact ⟨_, rfl, rfl, rfl, rfl, rfl⟩
  · intro hbl hroot
    unfold stepOwnersFile
    simp only [hread, hparse, hbl, hroot, Bool.false_eq_true, if_false, if_true]
    exact ⟨_, rfl, rfl, rfl, rfl, rfl⟩

/-- C10 witness. -/
theorem c10_witness :
    envEmptyRoster.readFile ["pkg", "OWNERS"] = Except.ok "" ∧
    parseOwnersDecl { envEmptyRoster with
        parseSimple := fun _ => Except.ok ⟨⟨["alice"], [], [], ["bad"]⟩⟩ } "" =
      ParsedDecl.decl ⟨["alice"], [], [], ["bad"]⟩ ∧
    ["bad"].any (fun x => (["bad"] : List String).contains x) = true ∧
    ∃ st', stepOwnersFile { envEmptyRoster with
        parseSimple := fun _ => Except.ok ⟨⟨["alice"], [], [], ["bad"]⟩⟩ } ["bad"] []
        (LoopState.mk [] ∅ ∅ []) ownersChange = Except.ok st' ∧
      st'.wrongOwnersFiles = updateMap [] ["pkg", "OWNERS"]
        (MessageWithLine.mk 1 (blacklistMsg ["bad"] ["bad"])) ∧
      st'.members = ∅ ∧ st'.nonMembers = ∅ ∧ st'.trace = [] :=
  ⟨rfl, by decide, by decide,
    (c10_blacklist_and_root_short_circuit
      { envEmptyRoster with parseSimple := fun _ => Except.ok ⟨⟨["alice"], [], [], ["bad"]⟩⟩ }
      ["bad"] [] (LoopState.mk [] ∅ ∅ []) ownersChange "" ⟨["alice"], [], [], ["bad"]⟩
      rfl (by decide)).1 (by decide)⟩

/-- Case analysis of one loop iteration: it either makes `handle` return
with the current trace (read failure: `nil`; roster failure: an error after
one fetch), or extends the state without touching trace and members, or
performs the one fetch that fills the empty member cache. -/
theorem stepOwnersFile_shape (env : Env) (bl : List String) (ra : RepoAliases)
    (st : LoopState) (c : PRChange) :
    stepOwnersFile env bl ra st c = Except.error (st.trace, none) ∨
    (∃ e, env.getMembersForOrg = Except.error e ∧
      stepOwnersFile env bl ra st c =
        Except.error (st.trace ++ [GithubAction.fetchMembers],
          some ("failed to get members for org: " ++ e))) ∨
    (∃ st', stepOwnersFile env bl ra st c = Except.ok st' ∧
      st'.trace = st.trace ∧ st'.members = st.members) ∨
    (st.members.card = 0 ∧ ∃ st', stepOwnersFile env bl ra st c = Except.ok st' ∧
      st'.trace = st.trace ++ [GithubAction.fetchMembers] ∧
      env.getMembersForOrg = Except.ok st'.members) := by
  unfold stepOwnersFile
  cases hr : env.readFile c.filename with
  | error e => left; rfl
  | ok b =>
    dsimp only
    cases hp : parseOwnersDecl env b with
    | failure e =>
      dsimp only
      right; right; left
      exact ⟨_, rfl, rfl, rfl⟩
    | decl cfg =>
      dsimp only
      by_cases hbl : (bl.any fun x => cfg.labels.contains x) = true
      · rw [if_pos hbl]
        right; right; left
        exact ⟨_, rfl, rfl, rfl⟩
      · rw [if_neg hbl]
        by_cases hroot : (isRootDir c.filename && cfg.approvers.isEmpty) = true
        · rw [if_pos hroot]
          right; right; left
          exact ⟨_, rfl, rfl, rfl⟩
        · rw [if_neg hroot]
          by_cases hcard : st.members.card = 0
          · rw [if_pos hcard]
            cases hm : env.getMembersForOrg with
            | error e =>
              right; left
              exact ⟨e, rfl, rfl⟩
            | ok m =>
              dsimp only
              right; right; right
              exact ⟨hcard, _, rfl, rfl, rfl⟩
          · rw [if_neg hcard]
            right; right; left
            exact ⟨_, rfl, rfl, rfl⟩

/-- Case analysis of the OWNERS_ALIASES branch: read failure exits with an
empty trace and `nil`; roster failure exits with one fetch and an error;
otherwise exactly one fetch happened and the cached members are the fetched
roster. -/
theorem aliasPhase_shape (env : Env) (c : PRChange) :
    aliasPhase env c = Except.error ([], none) ∨
    (∃ e, env.getMembersForOrg = Except.error e ∧
      aliasPhase env c = Except.error ([GithubAction.fetchMembers],
        some ("failed to get members for org: " ++ e))) ∨
    (∃ ast, aliasPhase env c = Except.ok ast ∧
      ast.trace = [GithubAction.fetchMembers] ∧
      env.getMembersForOrg = Except.ok ast.members) := by
  unfold aliasPhase
  cases hr : env.readFile [ownersAliasesFileName] with
  | error e => left; rfl
  | ok b =>
    dsimp only
    cases hm : env.getMembersForOrg with
    | error e =>
      right; left
      exact ⟨e, rfl, rfl⟩
    | ok m =>
      dsimp only
      right; right
      exact ⟨_, rfl, rfl, rfl⟩

/-- The acting step only appends label/review actions: no roster fetch and
no comment pruning. -/
theorem react_trace_append (env : Env) (pre : PREvent)
    (wof : List (List String × MessageWithLine)) (present : Bool)
    (me : MessageWithLine) (nm : Finset String) (tr : List GithubAction) :
    ∃ ext, (react env pre wof present me nm tr).1 = tr ++ ext ∧
      countFetch ext = 0 ∧ GithubAction.pruneComments ∉ ext := by
  unfold react
  by_cases hv : hasViolation wof present nm = true
  · rw [if_pos hv]
    dsimp only
    cases ha : env.addLabelResult with
    | error e =>
      exact ⟨[GithubAction.addLabel invalidOwnersLabel], rfl, by simp [countFetch], by simp⟩
    | ok u =>
      dsimp only
      cases hc : env.createReviewResult with
      | error e =>
        dsimp only
        refine ⟨_, by rw [List.append_assoc], by simp [countFetch], by simp⟩
      | ok v =>
        dsimp only
        refine ⟨_, by rw [List.append_assoc], by simp [countFetch], by simp⟩
  · rw [if_neg hv]
    dsimp only
    cases hr : env.removeLabelResult with
    | error e =>
      exact ⟨[GithubAction.removeLabel invalidOwnersLabel], rfl, by simp [countFetch], by simp⟩
    | ok u =>
      exact ⟨[GithubAction.removeLabel invalidOwnersLabel], rfl, by simp [countFetch], by simp⟩

/-- `countFetch` is additive over trace concatenation. -/
theorem countFetch_append (l1 l2 : List GithubAction) :
    countFetch (l1 ++ l2) = countFetch l1 + countFetch l2 := by
  simp [countFetch, List.count_append]

/-- When the roster fetch succeeds with a non-empty member set, the whole
per-file loop performs at most one fetch beyond the incoming trace (none if
the member cache is already non-empty). -/
theorem ownersLoop_fetch_bound (env : Env) (bl : List String) (ra : RepoAliases)
    (m : Finset String) (hm : env.getMembersForOrg = Except.ok m) (hne : m.Nonempty) :
    ∀ (cs : List PRChange) (st : LoopState),
      countFetch (loopTrace (ownersLoop env bl ra st cs)) ≤
        countFetch st.trace + (if st.members.card = 0 then 1 else 0) := by
  intro cs
  induction cs with
  | nil =>
    intro st
    simp only [ownersLoop, loopTrace]
    exact Nat.le_add_right _ _
  | cons c cs ih =>
    intro st
    rcases stepOwnersFile_shape env bl ra st c with hstep | ⟨e, hmm, hstep⟩ |
      ⟨st', hstep, htr, hmem⟩ | ⟨hcard, st', hstep, htr, hmm⟩
    · simp only [ownersLoop, hstep, loopTrace]
      exact Nat.le_add_right _ _
    · rw [hm] at hmm
      cases hmm
    · simp only [ownersLoop, hstep]
      have h2 := ih st'
      rw [htr, hmem] at h2
      exact h2
    · simp only [ownersLoop, hstep]
      have hmeq : st'.members = m := by
        rw [hm] at hmm
        injection hmm with h
        exact h.symm
      have h2 := ih st'
      rw [htr, hmeq, countFetch_append] at h2
      have hcard' : ¬ m.card = 0 := by
        intro h0
        rcases hne with ⟨x, hx⟩
        have := Finset.card_eq_zero.mp h0
        rw [this] at hx
        exact absurd hx (Finset.not_mem_empty x)
      rw [if_neg hcard'] at h2
      rw [if_pos hcard]
      have : countFetch [GithubAction.fetchMembers] = 1 := by simp [countFetch]
      rw [this] at h2
      omega

/-- C8 (amended): provided the roster fetch succeeds and returns a
non-empty member set, the membership roster is fetched at most once per run
of `handle` — the lazily filled cache is reused by every later membership
check.  (With an empty fetched roster the `members.Len() == 0` cache test
re-fires, see the counterexample.) -/
theorem c8_fetch_at_most_once_nonempty_roster
    (env : Env) (pre : PREvent) (bl : List String) (m : Finset String)
    (hm : env.getMembersForOrg = Except.ok m) (hne : m.Nonempty) :
    countFetch (handle env pre bl).1 ≤ 1 := by
  have hcard' : ¬ m.card = 0 := by
    intro h0
    rcases hne with ⟨x, hx⟩
    rw [Finset.card_eq_zero.mp h0] at hx
    exact absurd hx (Finset.not_mem_empty x)
  have hfet : countFetch [GithubAction.fetchMembers] = 1 := by simp [countFetch]
  cases hch : env.changes with
  | error e => simp [handle, hch, countFetch]
  | ok chs =>
    have hH : handle env pre bl = handleWithChanges env pre bl chs := by
      simp [handle, hch]
    rw [hH]
    unfold handleWithChanges
    by_cases hguard : ((modifiedOwnersFilesOf chs).isEmpty && !(!(aliasChangesOf chs).isEmpty)) = true
    · rw [if_pos hguard]
      simp [countFetch]
    · rw [if_neg hguard]
      cases hcl : env.cloneResult with
      | error e => simp [countFetch]
      | ok u =>
        dsimp only
        cases hco : env.checkoutResult with
        | error e => simp [countFetch]
        | ok v =>
          dsimp only
          by_cases halias : (!(aliasChangesOf chs).isEmpty) = true
          · rw [if_pos halias]
            rcases aliasPhase_shape env ((aliasChangesOf chs).getLast?.getD default) with
              hph | ⟨e, hmm, hph⟩ | ⟨ast, hph, htr, hmm⟩
            · rw [hph]
              simp [countFetch]
            · rw [hm] at hmm
              cases hmm
            · rw [hph]
              dsimp only
              rw [if_neg (by simp [halias])]
              have hmeq : ast.members = m := by
                rw [hm] at hmm
                injection hmm with h
                exact h.symm
              have hb := ownersLoop_fetch_bound env bl ast.repoAliases m hm hne
                (modifiedOwnersFilesOf chs) ⟨[], ast.members, ast.nonMembers, ast.trace⟩
              dsimp only at hb
              have hif : (if ast.members.card = 0 then 1 else 0) = 0 := by
                rw [hmeq]
                exact if_neg hcard'
              rw [hif] at hb
              cases hloop : ownersLoop env bl ast.repoAliases
                  ⟨[], ast.members, ast.nonMembers, ast.trace⟩ (modifiedOwnersFilesOf chs) with
              | error r =>
                rw [hloop] at hb
                simp only [loopTrace] at hb
                rw [htr, hfet] at hb
                dsimp only
                omega
              | ok st =>
                rw [hloop] at hb
                simp only [loopTrace] at hb
                rw [htr, hfet] at hb
                dsimp only
                rcases react_trace_append env pre st.wrongOwnersFiles
                  ast.wrongOwnersAliasesFilePresent ast.ownersAliasesFileError st.nonMembers
                  st.trace with ⟨ext, hext, hcnt, _⟩
                rw [hext, countFetch_append, hcnt]
                omega
          · rw [if_neg halias]
            dsimp only
            by_cases hearly :
              ((!(modifiedOwnersFilesOf chs).isEmpty) && !(!(aliasChangesOf chs).isEmpty)) = true
            · rw [if_pos hearly]
              cases hrf : env.readFile [ownersAliasesFileName] with
              | error e => simp [countFetch]
              | ok b =>
                dsimp only
                cases hpa : env.parseAliases b with
                | error e => simp [countFetch]
                | ok ra => simp [countFetch]
            · rw [if_neg hearly]
              have hb := ownersLoop_fetch_bound env bl ([] : List (String × List String)) m hm hne
                (modifiedOwnersFilesOf chs) ⟨[], ∅, ∅, []⟩
              dsimp only at hb
              rw [if_pos Finset.card_empty] at hb
              cases hloop : ownersLoop env bl ([] : List (String × List String))
                  ⟨[], ∅, ∅, []⟩ (modifiedOwnersFilesOf chs) with
              | error r =>
                rw [hloop] at hb
                simp only [loopTrace] at hb
                simp only [countFetch, List.count_nil] at hb
                simpa [countFetch] using hb
              | ok st =>
                rw [hloop] at hb
                simp only [loopTrace] at hb
                simp only [countFetch, List.count_nil] at hb
                rcases react_trace_append env pre st.wrongOwnersFiles false default st.nonMembers
                  st.trace with ⟨ext, hext, hcnt, _⟩
                rw [hext, countFetch_append, hcnt]
                simp only [countFetch] at *
                omega

/-- C6: flat-schema parsing is attempted first; whenever it fails or
yields an empty declaration, the filtered schema decides the outcome: if
filtered parsing fails with `e2`, the parse outcome is `failure e2` (the
flat error is discarded) and the loop records for that file exactly the
message built from `e2` at its diff-relative line, touching nothing else;
if filtered parsing succeeds the outcome is the concatenated filter roles
and no parse failure is recorded. -/
theorem c6_flat_then_filtered_fallback
    (env : Env) (b : String)
    (hflat : (∃ e1, env.parseSimple b = Except.error e1) ∨
      (∃ s, env.parseSimple b = Except.ok s ∧ s.Empty = true)) :
    (∀ e2, env.parseFull b = Except.error e2 →
      parseOwnersDecl env b = ParsedDecl.failure e2) ∧
    (∀ full, env.parseFull b = Except.ok full →
      parseOwnersDecl env b = ParsedDecl.decl
        ⟨full.filters.foldl (fun acc cfg => acc ++ cfg.approvers) [],
         full.filters.foldl (fun acc cfg => acc ++ cfg.reviewers) [],
         full.filters.foldl (fun acc cfg => acc ++ cfg.requiredReviewers) [],
         full.filters.foldl (fun acc cfg => acc ++ cfg.labels) []⟩) ∧
    (∀ (bl : List String) (ra : RepoAliases) (st : LoopState) (c : PRChange) (e2 : String),
      env.readFile c.filename = Except.ok b →
      env.parseFull b = Except.error e2 →
      stepOwnersFile env bl ra st c = Except.ok
        (LoopState.mk (updateMap st.wrongOwnersFiles c.filename
          (MessageWithLine.mk (computeLine env c.patch e2) (cannotParseMsg e2)))
          st.members st.nonMembers st.trace)) := by
  have hfall : parseOwnersDecl env b = tryFullConfig env b := by
    unfold parseOwnersDecl
    rcases hflat with ⟨e1, h1⟩ | ⟨s, h1, h2⟩
    · rw [h1]
    · rw [h1]
      dsimp only
      rw [if_pos h2]
  refine ⟨?_, ?_, ?_⟩
  · intro e2 h
    rw [hfall]
    unfold tryFullConfig
    rw [h]
  · intro full h
    rw [hfall]
    unfold tryFullConfig
    rw [h]
  · intro bl ra st c e2 hread hfull
    have hfail : parseOwnersDecl env b = ParsedDecl.failure e2 := by
      rw [hfall]
      unfold tryFullConfig
      rw [hfull]
    unfold stepOwnersFile
    rw [hread]
    dsimp only
    rw [hfail]

/-- C7: whenever the run found a violation and the label call goes
through, `react` appends exactly one `AddLabel` of the invalid-ownership
label followed by exactly one batched review whose inline comments are one
per wrong OWNERS file — at its recorded message and diff-relative position —
plus one for the alias file exactly when its parse failed, whose body is
the single summary built from the invalid-file count, the alias-violation
flag and the non-member set, and whose commit SHA is the head SHA when
non-empty. -/
theorem c7_violation_adds_label_single_review
    (env : Env) (pre : PREvent) (wof : List (List String × MessageWithLine))
    (present : Bool) (me : MessageWithLine) (nm : Finset String) (tr : List GithubAction)
    (hv : hasViolation wof present nm = true)
    (hadd : env.addLabelResult = Except.ok ()) :
    ∃ rv : DraftReview,
      (react env pre wof present me nm tr).1 =
        tr ++ [GithubAction.addLabel invalidOwnersLabel, GithubAction.createReview rv] ∧
      rv.comments = wofComments wof ++
        (if present = true then
          [DraftReviewComment.mk [ownersAliasesFileName] me.message me.line] else []) ∧
      rv.comments.length = wof.length + (if present = true then 1 else 0) ∧
      rv.body = env.formatResponseRaw (mkResponse pre.org wof.length present nm) ∧
      rv.commitSHA = (if pre.headSHA ≠ "" then some pre.headSHA else none) ∧
      (env.createReviewResult = Except.ok () →
        (react env pre wof present me nm tr).2 = none) := by
  refine ⟨⟨env.formatResponseRaw (mkResponse pre.org wof.length present nm),
    wofComments wof ++ (if present = true then
      [DraftReviewComment.mk [ownersAliasesFileName] me.message me.line] else []),
    if pre.headSHA ≠ "" then some pre.headSHA else none⟩, ?_, rfl, ?_, rfl, rfl, ?_⟩
  · unfold react
    rw [if_pos hv, hadd]
    dsimp only
    cases env.createReviewResult <;> simp
  · cases present <;> simp [wofComments]
  · intro h
    unfold react
    rw [if_pos hv, hadd, h]

/-- C9: the kept changed files (`modifiedOwnersFiles` plus the alias-file
match) all have base name `OWNERS` or `OWNERS_ALIASES`; and when no changed
file has such a base name, `handle` terminates with an empty action trace
(no label change, no comment, no review) and `nil`. -/
theorem c9_filter_base_names_else_no_action
    (env : Env) (pre : PREvent) (bl : List String) :
    (∀ (chs : List PRChange) (c : PRChange),
      c ∈ modifiedOwnersFilesOf chs ++ aliasChangesOf chs →
      pathBase c.filename = ownersFileName ∨ pathBase c.filename = ownersAliasesFileName) ∧
    (∀ chs, env.changes = Except.ok chs →
      (∀ c ∈ chs, pathBase c.filename ≠ ownersFileName ∧
        pathBase c.filename ≠ ownersAliasesFileName) →
      handle env pre bl = ([], none)) := by
  constructor
  · intro chs c hc
    rcases List.mem_append.mp hc with h | h
    · left
      have h1 : c ∈ chs.filter (fun c => pathBase c.filename == ownersFileName) := h
      exact eq_of_beq (List.mem_filter.mp h1).2
    · right
      have h1 : c ∈ chs.filter (fun c => c.filename == [ownersAliasesFileName]) := h
      have heq : c.filename = [ownersAliasesFileName] := eq_of_beq (List.mem_filter.mp h1).2
      rw [heq]
      rfl
  · intro chs hch hnone
    have howners : modifiedOwnersFilesOf chs = [] := by
      unfold modifiedOwnersFilesOf
      apply List.filter_eq_nil_iff.mpr
      intro c hc
      simp only [beq_iff_eq]
      exact (hnone c hc).1
    have halias : aliasChangesOf chs = [] := by
      unfold aliasChangesOf
      apply List.filter_eq_nil_iff.mpr
      intro c hc
      simp only [beq_iff_eq]
      intro heq
      apply (hnone c hc).2
      rw [heq]
      rfl
    have hH : handle env pre bl = handleWithChanges env pre bl chs := by
      simp [handle, hch]
    rw [hH]
    unfold handleWithChanges
    rw [howners, halias]
    rfl

/-- C5 (amended): a failure fetching the changed-file list is fatal and
surfaced (`handle` returns the wrapped error with no action taken), but an
I/O failure reading a changed file's content from the checkout only aborts
the run silently: `handle` logs and returns `nil`. -/
theorem c5_changelist_fatal_read_nil (env : Env) (pre : PREvent) (bl : List String) :
    (∀ e, env.changes = Except.error e →
      handle env pre bl = ([], some ("error getting PR changes: " ++ e))) ∧
    (∀ chs, env.changes = Except.ok chs →
      env.cloneResult = Except.ok () → env.checkoutResult = Except.ok () →
      (∀ p, ∃ e, env.readFile p = Except.error e) →
      (handle env pre bl).2 = none) := by
  constructor
  · intro e h
    simp [handle, h]
  · intro chs hch hclone hcheckout hread
    have hH : handle env pre bl = handleWithChanges env pre bl chs := by
      simp [handle, hch]
    rw [hH]
    unfold handleWithChanges
    by_cases hguard :
      ((modifiedOwnersFilesOf chs).isEmpty && !(!(aliasChangesOf chs).isEmpty)) = true
    · rw [if_pos hguard]
    · rw [if_neg hguard, hclone]
      dsimp only
      rw [hcheckout]
      dsimp only
      by_cases halias : (!(aliasChangesOf chs).isEmpty) = true
      · rw [if_pos halias]
        rcases hread [ownersAliasesFileName] with ⟨e, he⟩
        have hap : aliasPhase env ((aliasChangesOf chs).getLast?.getD default) =
            Except.error ([], none) := by
          unfold aliasPhase
          rw [he]
        rw [hap]
      · rw [if_neg halias]
        dsimp only
        have hae : (aliasChangesOf chs).isEmpty = true := by
          rcases Bool.eq_false_or_eq_true (aliasChangesOf chs).isEmpty with h | h
          · exact h
          · exact absurd (by simp [h]) halias
        have hoe : (modifiedOwnersFilesOf chs).isEmpty = false := by
          rcases Bool.eq_false_or_eq_true (modifiedOwnersFilesOf chs).isEmpty with h | h
          · exact absurd (by simp [h, hae]) hguard
          · exact h
        have hearly :
            ((!(modifiedOwnersFilesOf chs).isEmpty) && !(!(aliasChangesOf chs).isEmpty)) = true := by
          simp [hoe, hae]
        rw [if_pos hearly]
        rcases hread [ownersAliasesFileName] with ⟨e, he⟩
        rw [he]


/-- C5 witness. -/
theorem c5_witness :
    handle envChangesFail pre0 [] =
      ([], some ("error getting PR changes: " ++ "network down")) ∧
    (handle envAliasReadFails pre0 []).2 = none :=
  ⟨(c5_changelist_fatal_read_nil envChangesFail pre0 []).1 "network down" rfl,
    (c5_changelist_fatal_read_nil envAliasReadFails pre0 []).2 [aliasChange] rfl rfl rfl
      (fun _ => ⟨"disk error", rfl⟩)⟩

/-- C6 witness. -/
theorem c6_witness :
    parseOwnersDecl envOwnersOnly "" = ParsedDecl.failure "full schema error" :=
  (c6_flat_then_filtered_fallback envOwnersOnly ""
    (Or.inl ⟨"flat schema error", rfl⟩)).1 "full schema error" rfl

/-- C7 witness. -/
theorem c7_witness :
    hasViolation [] true ∅ = true ∧
    ∃ rv : DraftReview, (react envBase pre0 [] true default ∅ []).1 =
      [] ++ [GithubAction.addLabel invalidOwnersLabel, GithubAction.createReview rv] :=
  ⟨by decide, by
    obtain ⟨rv, h1, _⟩ :=
      c7_violation_adds_label_single_review envBase pre0 [] true default ∅ []
        (by decide) rfl
    exact ⟨rv, h1⟩⟩

/-- C8 witness. -/
theorem c8_witness :
    envNonemptyRoster.getMembersForOrg = Except.ok {"alice"} ∧
    countFetch (handle envNonemptyRoster pre0 []).1 ≤ 1 :=
  ⟨rfl, c8_fetch_at_most_once_nonempty_roster envNonemptyRoster pre0 [] {"alice"} rfl
    ⟨"alice", Finset.mem_singleton_self "alice"⟩⟩

/-- C9 witness. -/
theorem c9_witness :
    (pathBase ownersChange.filename = ownersFileName ∨
      pathBase ownersChange.filename = ownersAliasesFileName) ∧
    handle envNoOwnership pre0 [] = ([], none) :=
  ⟨(c9_filter_base_names_else_no_action envNoOwnership pre0 []).1 [ownersChange]
      ownersChange (by decide),
    (c9_filter_base_names_else_no_action envNoOwnership pre0 []).2 [⟨["main.go"], "p"⟩]
      rfl (by decide)⟩

end VerifyOwners
